import Mathlib

/-!
Verification of solbuild (getsolus/solbuild) against its natural-language
specification.

This file shallowly embeds the Go functions the claims are about.  External
effects (the filesystem, the mount manager, the host environment, hash
functions, the network and `strconv.ParseFloat` from the Go standard library)
are modelled as explicit oracle parameters; everything the repository itself
computes is translated directly from the source.  Machine integers that are
only compared (releases, timestamps) are modelled as `Int`; Go `time.Time`
values are modelled by their Unix timestamp, under which `.UTC().Unix()` is
the identity.  Go strings are modelled as Lean strings operated on
character-wise; every function below only distinguishes ASCII characters, for
which Go's byte-wise operations coincide with the character-wise ones.
-/

namespace Solbuild

/-- Joining of clean path components, as `filepath.Join` behaves on the
non-empty, already-clean components used throughout the embedded code. -/
def pjoin (a b : String) : String := a ++ "/" ++ b

/-- `strings.HasSuffix`, character-wise. -/
def hasSuffix (s suffix : String) : Bool :=
  suffix.toList.isSuffixOf s.toList

/-- Splitting a character list at a separator (every part, in order). -/
def splitOnChar (sep : Char) : List Char → List (List Char)
  | [] => [[]]
  | c :: cs =>
    match splitOnChar sep cs with
    | [] => [[]]
    | h :: t => if c = sep then [] :: h :: t else (c :: h) :: t

/-! ## builder/pkg.go (`part_009`): ValidMemSize

`ValidMemSize` calls `strconv.ParseFloat(allButLast, 64)` from the Go
standard library; that external call is modelled by the oracle
`parseFloatOk : String → Bool` (`true` exactly when `ParseFloat` returns a
nil error). -/

/-- Embedding of `ValidMemSize` (src/unnamed/part_009, lines 330-357).
The empty check, the `ParseFloat` probe of `s[0:len(s)-1]`, and the loop
over `validLastChars` comparing against `s[len(s)-1:]` are translated
directly. -/
def ValidMemSize (parseFloatOk : String → Bool) (s : String) : Bool :=
  if s = "" then
    false
  else
    let allButLast : String := ⟨s.toList.dropLast⟩
    if !parseFloatOk allButLast then
      false
    else
      let lastChar : List Char := [s.toList.getLastD ' ']
      let validLastChars : List (List Char) := [['G'], ['T'], ['P'], ['E']]
      validLastChars.any (fun v => v == lastChar)

/-! ## builder/manifest.go (`part_005`): TransitManifest

`FileSha256sum` reads the file and hashes it; it is modelled by the oracle
`sha256sum : String → Except String String` (path to hex digest, or an I/O
error). -/

/-- Header of a transit manifest (`TransitManifestHeader`). -/
structure TransitManifestHeader where
  version : String
  target : String
deriving Repr, DecidableEq

/-- One verified file of a transit manifest (`TransitManifestFile`). -/
structure TransitManifestFile where
  path : String
  sha256 : String
deriving Repr, DecidableEq

/-- A transit manifest (`TransitManifest`). -/
structure TransitManifest where
  manifest : TransitManifestHeader
  file : List TransitManifestFile
deriving Repr, DecidableEq

/-- Errors `TransitManifest.AddFile` can return: `ErrIllegalUpload` or the
error propagated from `FileSha256sum`. -/
inductive AddFileErr where
  | illegalUpload
  | ioErr (msg : String)
deriving Repr, DecidableEq

/-- Embedding of `NewTransitManifest` (src/unnamed/part_005, lines 72-79). -/
def NewTransitManifest (target : String) : TransitManifest :=
  { manifest := { version := "1.0", target := target }, file := [] }

/-- `filepath.Base`: the last component of a slash-separated path (as it
behaves on the clean, non-empty, non-trailing-slash paths used here). -/
def filepathBase (p : String) : String :=
  ⟨(splitOnChar '/' p.toList).getLastD p.toList⟩

/-- Embedding of `TransitManifest.AddFile` (src/unnamed/part_005, lines
82-98): reject non-`.eopkg` paths with `ErrIllegalUpload`, otherwise hash
the file and append a `TransitManifestFile` entry. -/
def TransitManifest.AddFile (sha256sum : String → Except String String)
    (t : TransitManifest) (path : String) : Except AddFileErr TransitManifest :=
  if !hasSuffix path ".eopkg" then
    .error .illegalUpload
  else
    match sha256sum path with
    | .error e => .error (.ioErr e)
    | .ok hash =>
        .ok { t with file := t.file ++ [{ path := filepathBase path, sha256 := hash }] }

/-! ## builder/overlay.go: Overlay.Unmount

The mount manager (`disk.GetMountManager()`) is external; its `Unmount`
operation is the oracle `um : String → Option String` (`some err` when the
unmount of that mount point fails).  Besides the updated `Overlay`, the
embedding returns the list of mount points passed to `mountMan.Unmount`, in
call order, together with the function's returned error. -/

/-- The fields of `Overlay` (src/builder/overlay.go, lines 34-54) that
`Unmount` touches. -/
structure Overlay where
  baseDir : String
  workDir : String
  upperDir : String
  imgDir : String
  mountPoint : String
  extraMounts : List String
  mountedImg : Bool
  mountedOverlay : Bool
  mountedVFS : Bool
  mountedTmpfs : Bool
deriving Repr, DecidableEq

/-- The `vfsPoints` list built inside `Unmount` (src/builder/overlay.go,
lines 199-205). -/
def Overlay.vfsPoints (o : Overlay) : List String :=
  [pjoin o.mountPoint "dev/pts",
   pjoin o.mountPoint "dev/shm",
   pjoin o.mountPoint "dev",
   pjoin o.mountPoint "proc",
   pjoin o.mountPoint "sys"]

/-- The `if o.mountedTmpfs { ... }` block of `Unmount` (src/builder/overlay.go,
lines 230-236): attempt the tmpfs unmount, returning its error immediately. -/
def Overlay.unmountTmpfsStage (um : String → Option String) (o : Overlay)
    (t : List String) : Overlay × List String × Option String :=
  if o.mountedTmpfs then
    match um o.upperDir with
    | some e => (o, t ++ [o.upperDir], some e)
    | none => ({ o with mountedTmpfs := false }, t ++ [o.upperDir], none)
  else
    (o, t, none)

/-- The `if o.mountedOverlay { ... }` block of `Unmount`
(src/builder/overlay.go, lines 222-228) followed by the tmpfs block. -/
def Overlay.unmountOverlayStage (um : String → Option String) (o : Overlay)
    (t : List String) : Overlay × List String × Option String :=
  if o.mountedOverlay then
    match um o.mountPoint with
    | some e => (o, t ++ [o.mountPoint], some e)
    | none =>
        Overlay.unmountTmpfsStage um { o with mountedOverlay := false }
          (t ++ [o.mountPoint])
  else
    Overlay.unmountTmpfsStage um o t

/-- The `if o.mountedImg { ... }` block of `Unmount` (src/builder/overlay.go,
lines 214-220) followed by the overlay and tmpfs blocks. -/
def Overlay.unmountImgStage (um : String → Option String) (o : Overlay)
    (t : List String) : Overlay × List String × Option String :=
  if o.mountedImg then
    match um o.imgDir with
    | some e => (o, t ++ [o.imgDir], some e)
    | none =>
        Overlay.unmountOverlayStage um { o with mountedImg := false }
          (t ++ [o.imgDir])
  else
    Overlay.unmountOverlayStage um o t

/-- Embedding of `Overlay.Unmount` (src/builder/overlay.go, lines 190-239):
first every extra mount is unmounted with the result ignored and the list
cleared; then, when `mountedVFS` is set, the five VFS points are unmounted
with the results ignored and the flag cleared unconditionally; then the
image, overlay and tmpfs mounts are unmounted in that order, each returning
its error immediately. -/
def Overlay.Unmount (um : String → Option String) (o : Overlay) :
    Overlay × List String × Option String :=
  let t := o.extraMounts ++ (if o.mountedVFS then Overlay.vfsPoints o else [])
  let o1 : Overlay :=
    if o.mountedVFS then { o with extraMounts := [], mountedVFS := false }
    else { o with extraMounts := [] }
  Overlay.unmountImgStage um o1 t

/-- Attempting a list of unmounts in order, stopping at (and returning) the
first failure: the declarative shape of the tail of `Unmount`. -/
def attemptSeq (um : String → Option String) : List String → List String × Option String
  | [] => ([], none)
  | p :: ps =>
    match um p with
    | some e => ([p], some e)
    | none => ((p :: (attemptSeq um ps).1), (attemptSeq um ps).2)

/-- The image/overlay/tmpfs mount points `Unmount` still has to release, in
the order the code releases them. -/
def Overlay.unmountCandidates (o : Overlay) : List String :=
  (if o.mountedImg then [o.imgDir] else []) ++
    (if o.mountedOverlay then [o.mountPoint] else []) ++
    (if o.mountedTmpfs then [o.upperDir] else [])

theorem attemptSeq_append_ok (um : String → Option String) (p : String)
    (ps : List String) (h : um p = none) :
    attemptSeq um (p :: ps) =
      (p :: (attemptSeq um ps).1, (attemptSeq um ps).2) := by
  simp [attemptSeq, h]

theorem unmountTmpfsStage_eq (um : String → Option String) (o : Overlay)
    (t : List String) :
    (Overlay.unmountTmpfsStage um o t).2 =
      (t ++ (attemptSeq um (if o.mountedTmpfs then [o.upperDir] else [])).1,
       (attemptSeq um (if o.mountedTmpfs then [o.upperDir] else [])).2) := by
  unfold Overlay.unmountTmpfsStage
  cases hm : o.mountedTmpfs <;> simp [attemptSeq]
  cases hu : um o.upperDir <;> simp [attemptSeq, hu]

theorem unmountOverlayStage_eq (um : String → Option String) (o : Overlay)
    (t : List String) :
    (Overlay.unmountOverlayStage um o t).2 =
      (t ++ (attemptSeq um ((if o.mountedOverlay then [o.mountPoint] else []) ++
          (if o.mountedTmpfs then [o.upperDir] else []))).1,
       (attemptSeq um ((if o.mountedOverlay then [o.mountPoint] else []) ++
          (if o.mountedTmpfs then [o.upperDir] else []))).2) := by
  unfold Overlay.unmountOverlayStage
  cases hm : o.mountedOverlay <;> simp
  · exact unmountTmpfsStage_eq um o t
  · cases hu : um o.mountPoint <;> simp [attemptSeq, hu]
    have := unmountTmpfsStage_eq um { o with mountedOverlay := false } (t ++ [o.mountPoint])
    simp at this
    simp [this]

theorem unmountImgStage_eq (um : String → Option String) (o : Overlay)
    (t : List String) :
    (Overlay.unmountImgStage um o t).2 =
      (t ++ (attemptSeq um ((if o.mountedImg then [o.imgDir] else []) ++
          (if o.mountedOverlay then [o.mountPoint] else []) ++
          (if o.mountedTmpfs then [o.upperDir] else []))).1,
       (attemptSeq um ((if o.mountedImg then [o.imgDir] else []) ++
          (if o.mountedOverlay then [o.mountPoint] else []) ++
          (if o.mountedTmpfs then [o.upperDir] else []))).2) := by
  unfold Overlay.unmountImgStage
  cases hm : o.mountedImg <;> simp
  · have := unmountOverlayStage_eq um o t
    simp at this
    simp [this]
  · cases hu : um o.imgDir <;> simp [attemptSeq, hu]
    have := unmountOverlayStage_eq um { o with mountedImg := false } (t ++ [o.imgDir])
    simp at this
    simp [this]

/-- A fully-mounted overlay for concrete evaluation of `Unmount`. -/
def exOverlay : Overlay :=
  { baseDir := "/v/nano", workDir := "/v/nano/work", upperDir := "/v/nano/tmp",
    imgDir := "/v/nano/img", mountPoint := "/v/nano/union",
    extraMounts := ["/v/nano/union/home/build/YPKG/sources"],
    mountedImg := true, mountedOverlay := true, mountedVFS := true,
    mountedTmpfs := true }

/-- A mount manager on which only the backing-image unmount fails. -/
def exUm : String → Option String :=
  fun p => if p = "/v/nano/img" then some "device busy" else none

end Solbuild

/-- C1 counterexample: the claim fails on the code in two ways.  With every
mount flag set and a mount manager whose only failing unmount is the backing
image's, `Unmount` returns that failure without ever attempting the union
mount-point or the tmpfs (so not "every unmount is attempted", and the error
is returned before, not after, the rest); and even with no failures at all
the backing image is unmounted before the union mount-point, not after it as
the claimed order `extras → VFS → union → image → tmpfs` states. -/
theorem overlay_unmount_claim_counterexample :
    (Solbuild.Overlay.Unmount Solbuild.exUm Solbuild.exOverlay).2.2 =
        some "device busy" ∧
    "/v/nano/union" ∉
      (Solbuild.Overlay.Unmount Solbuild.exUm Solbuild.exOverlay).2.1 ∧
    "/v/nano/tmp" ∉
      (Solbuild.Overlay.Unmount Solbuild.exUm Solbuild.exOverlay).2.1 ∧
    (Solbuild.Overlay.Unmount (fun _ => none) Solbuild.exOverlay).2.1.indexOf
        "/v/nano/img" <
      (Solbuild.Overlay.Unmount (fun _ => none) Solbuild.exOverlay).2.1.indexOf
        "/v/nano/union" := by
  decide

/-- C1 (amended): `Unmount` releases, in order, the extra bind mounts (errors
ignored), then — when the VFS flag is set — the five VFS pseudo-filesystem
points (errors ignored), then the backing-image mount, then the union
mount-point, then the tmpfs; among those last three the first failure is
returned immediately and the remaining unmounts are skipped. -/
theorem overlay_unmount_order (um : String → Option String)
    (o : Solbuild.Overlay) :
    (Solbuild.Overlay.Unmount um o).2.1 =
      o.extraMounts ++
        (if o.mountedVFS then Solbuild.Overlay.vfsPoints o else []) ++
        (Solbuild.attemptSeq um (Solbuild.Overlay.unmountCandidates o)).1 ∧
    (Solbuild.Overlay.Unmount um o).2.2 =
      (Solbuild.attemptSeq um (Solbuild.Overlay.unmountCandidates o)).2 := by
  unfold Solbuild.Overlay.Unmount Solbuild.Overlay.unmountCandidates
  cases hv : o.mountedVFS <;>
    simp [Solbuild.unmountImgStage_eq, Solbuild.Overlay.vfsPoints]

namespace Solbuild

/-! ## builder/layer.go: the layer cache key

`PathExists` and the two hash helpers (`xxh3128HashFile`, which shells out to
`xxh128sum`, and `blake3.Sum256` + base64, both external to the repository's
own logic) are oracles collected in `LayerEnv`.  JSON string escaping is
omitted: every string marshalled here (package names, hex/base64 digests,
image paths) is escape-free. -/

/-- `LayersDir` (src/builder/abi_report.go, line 116). -/
def LayersDir : String := "/var/cache/solbuild/layers"

/-- `LayersFakeHash` (src/builder/abi_report.go, line 118). -/
def LayersFakeHash : String := "AAAAAAAAAAAAAAAAAAAAAAAAAAAAAAAAAAAAAAAAAAAA"

/-- A resolved dependency (`Dep`, src/unnamed/part_011, lines 18-21). -/
structure Dep where
  name : String
  hash : String
deriving Repr, DecidableEq

/-- The backing image field `Unmount`/`Layer` read (`BackingImage.ImagePath`). -/
structure BackingImage where
  imagePath : String
deriving Repr, DecidableEq

/-- `Layer` (src/builder/layer.go, lines 15-21); `hash` is the cached hash,
`""` when not yet computed. -/
structure Layer where
  deps : List Dep
  back : BackingImage
  hash : String
deriving Repr, DecidableEq

/-- The external calls `layer.go` makes. -/
structure LayerEnv where
  pathExists : String → Bool
  xxh3128HashFile : String → Except String String
  blake3sum256base64 : String → String

/-- JSON encoding of one `Dep` (fields tagged `name` and `hash`). -/
def Dep.jsonEncode (d : Dep) : String :=
  "\x7b\"name\":\"" ++ d.name ++ "\",\"hash\":\"" ++ d.hash ++ "\"\x7d"

/-- The `json.Marshal` serialization of `{Deps, ImageHash}` built in
`Layer.MarshalJSON` (src/builder/layer.go, lines 38-41). -/
def layerMarshalBytes (deps : List Dep) (imageHash : String) : String :=
  "\x7b\"deps\":[" ++ String.intercalate "," (deps.map Dep.jsonEncode) ++
    "],\"ImageHash\":\"" ++ imageHash ++ "\"\x7d"

/-- Embedding of `Layer.MarshalJSON` (src/builder/layer.go, lines 23-42):
error when the backing image does not exist, otherwise serialize the deps
together with the image file's hash. -/
def Layer.MarshalJSON (env : LayerEnv) (l : Layer) : Except String String :=
  if env.pathExists l.back.imagePath then
    match env.xxh3128HashFile l.back.imagePath with
    | .error e => .error e
    | .ok imageHash => .ok (layerMarshalBytes l.deps imageHash)
  else
    .error ("Backing image doens't exist at " ++ l.back.imagePath)

/-- Embedding of `Layer.Hash` (src/builder/layer.go, lines 44-56): on a cold
cache, a marshalling failure becomes `LayersFakeHash`, otherwise the base64
of the blake3 digest of the serialization.  (The Go method memoizes the
result in `l.hash`; the embedding returns the computed value.) -/
def Layer.Hash (env : LayerEnv) (l : Layer) : String :=
  if l.hash = "" then
    match Layer.MarshalJSON env l with
    | .error _ => LayersFakeHash
    | .ok jsonBytes => env.blake3sum256base64 jsonBytes
  else
    l.hash

/-- Embedding of `Layer.BasePath` (src/builder/layer.go, lines 58-60). -/
def Layer.BasePath (env : LayerEnv) (l : Layer) : String :=
  pjoin LayersDir (Layer.Hash env l)

/-- The two paths `Layer.RequestOverlay` can take: reuse the cached layer, or
run `Layer.Create`. -/
inductive RequestOutcome where
  | reuse (contentPath : String)
  | create (contentPath : String)
deriving Repr, DecidableEq

/-- Embedding of `Layer.RequestOverlay` (src/builder/layer.go, lines 62-71):
reuse the layer's content directory unless it is missing or the key is the
fake hash, in which case `Layer.Create` runs. -/
def Layer.RequestOverlay (env : LayerEnv) (l : Layer) : RequestOutcome :=
  let contentPath := pjoin (Layer.BasePath env l) "content"
  if !env.pathExists contentPath || Layer.Hash env l = LayersFakeHash then
    .create contentPath
  else
    .reuse contentPath

/-- A layer whose backing image is missing, with cold hash cache, and an
environment on which no path exists. -/
def exLayer : Layer :=
  { deps := [], back := { imagePath := "/var/lib/solbuild/images/main-x86_64.img" },
    hash := "" }

/-- Environment for `exLayer`: nothing exists on disk. -/
def exLayerEnv : LayerEnv :=
  { pathExists := fun _ => false,
    xxh3128HashFile := fun _ => .ok "cafe",
    blake3sum256base64 := fun _ => "NotTheFakeHash" }

end Solbuild

/-- C2 counterexample: with the backing-image file missing, `MarshalJSON`
does error, but `Layer.Hash` — whose Go signature cannot even return an
error — swallows it and returns the distinguished fake key, and
`RequestOverlay` proceeds into the creation path keyed by that substitute
key instead of surfacing an error to its caller. -/
theorem layer_missing_image_counterexample :
    Solbuild.Layer.MarshalJSON Solbuild.exLayerEnv Solbuild.exLayer =
      .error
        "Backing image doens't exist at /var/lib/solbuild/images/main-x86_64.img" ∧
    Solbuild.Layer.Hash Solbuild.exLayerEnv Solbuild.exLayer =
      Solbuild.LayersFakeHash ∧
    Solbuild.Layer.RequestOverlay Solbuild.exLayerEnv Solbuild.exLayer =
      .create (Solbuild.pjoin
        (Solbuild.pjoin Solbuild.LayersDir Solbuild.LayersFakeHash) "content") := by
  exact ⟨rfl, rfl, rfl⟩

/-- C2 (amended): when the backing-image file is missing at key-computation
time, `MarshalJSON` surfaces an error, but `Layer.Hash` maps that failure to
the distinguished fake key (no error reaches its caller) and
`RequestOverlay` consequently always takes the creation path — an always-miss
under the substitute key — never reusing a cached layer under a guessed key. -/
theorem layer_missing_image_fake_key (env : Solbuild.LayerEnv)
    (l : Solbuild.Layer)
    (hmiss : env.pathExists l.back.imagePath = false)
    (hcold : l.hash = "") :
    (∃ msg, Solbuild.Layer.MarshalJSON env l = .error msg) ∧
    Solbuild.Layer.Hash env l = Solbuild.LayersFakeHash ∧
    Solbuild.Layer.RequestOverlay env l =
      .create (Solbuild.pjoin
        (Solbuild.pjoin Solbuild.LayersDir Solbuild.LayersFakeHash) "content") := by
  have hm : Solbuild.Layer.MarshalJSON env l =
      .error ("Backing image doens't exist at " ++ l.back.imagePath) := by
    simp [Solbuild.Layer.MarshalJSON, hmiss]
  have hh : Solbuild.Layer.Hash env l = Solbuild.LayersFakeHash := by
    simp [Solbuild.Layer.Hash, hcold, hm]
  refine ⟨⟨_, hm⟩, hh, ?_⟩
  simp [Solbuild.Layer.RequestOverlay, Solbuild.Layer.BasePath, hh]

/-- Witness for C2's amended theorem at the concrete missing-image layer. -/
theorem layer_missing_image_fake_key_witness :
    Solbuild.Layer.Hash Solbuild.exLayerEnv Solbuild.exLayer =
      Solbuild.LayersFakeHash :=
  (layer_missing_image_fake_key Solbuild.exLayerEnv Solbuild.exLayer rfl rfl).2.1

/-- C3: `RequestOverlay` returns the existing content path without running
the creation path exactly when `<layers-root>/<key>/content` exists and the
key is not the distinguished fake key; when the content path is absent or
the key is the fake key it runs the creation path (on the same path). -/
theorem layer_requestOverlay_cache_hit (env : Solbuild.LayerEnv)
    (l : Solbuild.Layer) :
    (Solbuild.Layer.RequestOverlay env l =
        .reuse (Solbuild.pjoin (Solbuild.Layer.BasePath env l) "content") ↔
      env.pathExists
          (Solbuild.pjoin (Solbuild.Layer.BasePath env l) "content") = true ∧
        Solbuild.Layer.Hash env l ≠ Solbuild.LayersFakeHash) ∧
    (Solbuild.Layer.RequestOverlay env l =
        .create (Solbuild.pjoin (Solbuild.Layer.BasePath env l) "content") ↔
      ¬(env.pathExists
          (Solbuild.pjoin (Solbuild.Layer.BasePath env l) "content") = true ∧
        Solbuild.Layer.Hash env l ≠ Solbuild.LayersFakeHash)) := by
  unfold Solbuild.Layer.RequestOverlay
  by_cases hp : env.pathExists
      (Solbuild.pjoin (Solbuild.Layer.BasePath env l) "content") = true <;>
    by_cases hf : Solbuild.Layer.Hash env l = Solbuild.LayersFakeHash <;>
    simp [hp, hf]

/-- C9: `TransitManifest.AddFile` accepts a file into the manifest only when
its path ends in `.eopkg`: any other path fails with `ErrIllegalUpload` (and,
the result being an error, the manifest's file list is unchanged), and
whenever the call succeeds the added path did end in `.eopkg` and the file
list grew by exactly that entry. -/
theorem transitManifest_addFile_spec
    (sha256sum : String → Except String String)
    (t : Solbuild.TransitManifest) (path : String) :
    (¬ Solbuild.hasSuffix path ".eopkg" = true →
      Solbuild.TransitManifest.AddFile sha256sum t path =
        .error .illegalUpload) ∧
    (∀ t', Solbuild.TransitManifest.AddFile sha256sum t path = .ok t' →
      Solbuild.hasSuffix path ".eopkg" = true ∧ t'.manifest = t.manifest ∧
      ∃ hash, sha256sum path = .ok hash ∧
        t'.file = t.file ++ [{ path := Solbuild.filepathBase path, sha256 := hash }]) := by
  constructor
  · intro h
    simp [Solbuild.TransitManifest.AddFile, h]
  · intro t' h
    unfold Solbuild.TransitManifest.AddFile at h
    by_cases hs : Solbuild.hasSuffix path ".eopkg" <;> simp [hs] at h
    rcases hh : sha256sum path with e | hash <;> rw [hh] at h <;> simp at h
    exact ⟨hs, by simp [← h], hash, rfl, by simp [← h]⟩

/-- Witness for C9 at concrete inputs: `"nano.eopkg"` is accepted and
`"evil.rpm"` is rejected with `ErrIllegalUpload`. -/
theorem transitManifest_addFile_spec_witness :
    Solbuild.TransitManifest.AddFile (fun _ => .ok "cafe")
        (Solbuild.NewTransitManifest "unstable") "evil.rpm" =
      .error .illegalUpload ∧
    Solbuild.TransitManifest.AddFile (fun _ => .ok "cafe")
        (Solbuild.NewTransitManifest "unstable") "sub/nano.eopkg" =
      .ok { manifest := { version := "1.0", target := "unstable" },
            file := [{ path := "nano.eopkg", sha256 := "cafe" }] } := by
  exact ⟨(transitManifest_addFile_spec (fun _ => .ok "cafe")
      (Solbuild.NewTransitManifest "unstable") "evil.rpm").1 (by decide), rfl⟩

/-- C8 concrete check: `""` and `"8XYZ"` are rejected for every oracle, and
`"8G"` is accepted when the oracle accepts `"8"`. -/
theorem validMemSize_examples (parseFloatOk : String → Bool) :
    Solbuild.ValidMemSize parseFloatOk "" = false ∧
    Solbuild.ValidMemSize parseFloatOk "8XYZ" = false ∧
    (parseFloatOk "8" = true → Solbuild.ValidMemSize parseFloatOk "8G" = true) := by
  refine ⟨rfl, ?_, fun h => ?_⟩
  · unfold Solbuild.ValidMemSize
    cases hp : parseFloatOk ⟨"8XYZ".toList.dropLast⟩ <;> simp [hp]
  · unfold Solbuild.ValidMemSize
    have : (⟨"8G".toList.dropLast⟩ : String) = "8" := by decide
    simp [this, h]

namespace Solbuild

/-! ## builder/history.go: PackageHistory

`scanUpdates` walks the already-collected commit identifiers; the external
pieces — the `updates` map built from git and the `GetFileContents` +
`NewYmlPackageFromBytes` pipeline — are the oracles `updates` and `getPkg`
(keyed by the identifier, which determines both).  Go's unstable
`sort.Sort(sort.Reverse(SortUpdatesByRelease(...)))`, whose comparator
`Less(i,j) = a[i].Package.Release < a[j].Package.Release` looks at the
release only, is modelled by an insertion sort with the non-increasing
release relation; every property proved below (and the counterexample, which
is invariant under permutations of equal-release entries) is independent of
which correctly-sorting permutation the unstable sort picks. -/

/-- `MaxChangelogEntries` (src/builder/history.go, line 405). -/
def MaxChangelogEntries : Nat := 10

/-- The fields of a parsed recipe (`Package`) the history engine reads. -/
structure HPackage where
  version : String
  release : Int
deriving Repr, DecidableEq

/-- A collected-but-not-yet-analyzed update (`PackageUpdate` before
`scanUpdates` fills in `Package`); `time` is `signature.When` as a Unix
timestamp, on which `.UTC().Unix()` is the identity. -/
structure RawUpdate where
  time : Int
deriving Repr, DecidableEq

/-- An update after `scanUpdates` attached its parsed package. -/
structure HistUpdate where
  time : Int
  version : String
  release : Int
deriving Repr, DecidableEq

/-- The comparator the code sorts with: `sort.Reverse` of
`SortUpdatesByRelease.Less` (src/builder/history.go, lines 589-591), i.e.
non-increasing release. -/
def releaseDesc (a b : HistUpdate) : Prop := b.release ≤ a.release

instance : DecidableRel releaseDesc := fun a b => by
  unfold releaseDesc; infer_instance

instance : IsTotal HistUpdate releaseDesc :=
  ⟨fun a b => le_total b.release a.release⟩

instance : IsTrans HistUpdate releaseDesc :=
  ⟨fun _ _ _ hab hbc => le_trans hbc hab⟩

/-- Embedding of `PackageHistory.scanUpdates` (src/builder/history.go,
lines 595-630): keep, in order, every identifier whose update exists and
whose recipe blob parses; sort by descending release; truncate to
`MaxChangelogEntries`. -/
def scanUpdates (tags : List String) (updates : String → Option RawUpdate)
    (getPkg : String → Option HPackage) : List HistUpdate :=
  let updateSet := tags.filterMap (fun tagID =>
    match updates tagID with
    | none => none
    | some u =>
      match getPkg tagID with
      | none => none
      | some pkg =>
          some { time := u.time, version := pkg.version, release := pkg.release })
  let sorted := List.insertionSort releaseDesc updateSet
  if updateSet.length ≥ MaxChangelogEntries then
    sorted.take MaxChangelogEntries
  else
    sorted

/-- The `for i := 1; ...` loop of `GetLastVersionTimestamp`
(src/builder/history.go, lines 711-719): walk until the version changes,
carrying the last same-version update's timestamp. -/
def lastVersionWalk : List HistUpdate → String → Int → Int
  | [], _, lastTime => lastTime
  | u :: us, lastVersion, lastTime =>
    if u.version ≠ lastVersion then lastTime
    else lastVersionWalk us u.version u.time

/-- Embedding of `PackageHistory.GetLastVersionTimestamp`
(src/builder/history.go, lines 701-722).  Go indexes `p.Updates[0]` and so
panics on an empty history; the `[]` case is arbitrary and the claim only
concerns non-empty histories.  Timestamps being modelled as Unix seconds,
`.UTC().Unix()` is the identity. -/
def GetLastVersionTimestamp : List HistUpdate → Int
  | [] => 0
  | u0 :: rest => lastVersionWalk rest u0.version u0.time

theorem getLastD_map_time (l : List HistUpdate) (d : HistUpdate) :
    ((l.map (fun u => u.time)).getLastD d.time) = (l.getLastD d).time := by
  rw [List.getLastD_eq_getLast?, List.getLastD_eq_getLast?, List.getLast?_map]
  cases h : l.getLast? <;> simp

theorem lastVersionWalk_eq_takeWhile (us : List HistUpdate) (v : String)
    (t : Int) :
    lastVersionWalk us v t =
      ((us.takeWhile (fun u => u.version == v)).map (fun u => u.time)).getLastD t := by
  induction us generalizing v t with
  | nil => rfl
  | cons u us ih =>
    rw [List.takeWhile_cons]
    by_cases h : u.version = v
    · simp only [lastVersionWalk, h, ne_eq, not_true_eq_false, if_false,
        ite_false, beq_self_eq_true, if_true, ite_true, List.map_cons,
        List.getLastD_cons]
      exact ih v u.time
    · have hb : (u.version == v) = false := by simp [h]
      simp [lastVersionWalk, h, hb]

/-- Two analyzable commits whose recipes share release 3: input for the C5
counterexample. -/
def exTags : List String := ["t1", "t2"]

/-- The collected updates for `exTags` (distinct timestamps). -/
def exRawUpdates : String → Option RawUpdate :=
  fun t => if t = "t1" then some { time := 100 }
    else if t = "t2" then some { time := 200 } else none

/-- Both commits' recipes parse to version `"1.0"`, release `3`. -/
def exGetPkg : String → Option HPackage :=
  fun _ => some { version := "1.0", release := 3 }

end Solbuild

/-- C5 counterexample: scanning two commits whose recipes both carry release
3 produces a history with two updates sharing that release — the claim's "no
two updates sharing the same release value" fails (and the tied pair is not
ordered by descending time either: the older timestamp comes first). -/
theorem packageHistory_scanUpdates_counterexample :
    Solbuild.scanUpdates Solbuild.exTags Solbuild.exRawUpdates Solbuild.exGetPkg =
      [{ time := 100, version := "1.0", release := 3 },
       { time := 200, version := "1.0", release := 3 }] ∧
    ((Solbuild.scanUpdates Solbuild.exTags Solbuild.exRawUpdates
        Solbuild.exGetPkg).map (fun u => u.release)) = [3, 3] := by
  constructor <;> rfl

/-- C5 (amended): every scanned history contains at most 10 updates and is
sorted by non-increasing release; equal releases are neither deduplicated
nor ordered by time. -/
theorem packageHistory_scanUpdates_invariant (tags : List String)
    (updates : String → Option Solbuild.RawUpdate)
    (getPkg : String → Option Solbuild.HPackage) :
    (Solbuild.scanUpdates tags updates getPkg).length ≤
        Solbuild.MaxChangelogEntries ∧
    List.Pairwise Solbuild.releaseDesc
      (Solbuild.scanUpdates tags updates getPkg) := by
  unfold Solbuild.scanUpdates
  simp only []
  generalize (tags.filterMap _ : List Solbuild.HistUpdate) = l
  have hsorted : List.Pairwise Solbuild.releaseDesc
      (List.insertionSort Solbuild.releaseDesc l) :=
    List.sorted_insertionSort Solbuild.releaseDesc l
  have hlen := List.length_insertionSort Solbuild.releaseDesc l
  by_cases h : l.length ≥ Solbuild.MaxChangelogEntries <;>
    simp only [h, if_true, if_false, ite_true, ite_false]
  · exact ⟨by simp [List.length_take],
      List.Pairwise.sublist (List.take_sublist _ _) hsorted⟩
  · exact ⟨by omega, hsorted⟩

/-- C6: for every non-empty history (newest first), `GetLastVersionTimestamp`
returns the Unix timestamp (timestamps are modelled as Unix seconds, on
which `.UTC().Unix()` is the identity) of the oldest update in the maximal
prefix of updates that all share the newest update's version — the moment of
the last real version bump. -/
theorem getLastVersionTimestamp_spec (u0 : Solbuild.HistUpdate)
    (rest : List Solbuild.HistUpdate) :
    Solbuild.GetLastVersionTimestamp (u0 :: rest) =
      (((u0 :: rest).takeWhile
          (fun u => u.version == u0.version)).getLastD u0).time := by
  show Solbuild.lastVersionWalk rest u0.version u0.time = _
  rw [Solbuild.lastVersionWalk_eq_takeWhile, List.takeWhile_cons]
  simp only [beq_self_eq_true, if_true, ite_true, List.getLastD_cons]
  exact Solbuild.getLastD_map_time _ u0

namespace Solbuild

/-! ## part_009: SaneEnvironment

`os.Getenv` is the oracle `getenv : String → String`, with `""` standing for
"unset" exactly as in Go; `DisableColors` is passed explicitly. -/

/-- `BuildUserHome` (src/builder/abi_report.go, line 148). -/
def BuildUserHome : String := "/home/build"

/-- `strings.ToUpper` on the ASCII variable names used here. -/
def goToUpper (s : String) : String := ⟨s.toList.map Char.toUpper⟩

/-- The eight fixed entries `SaneEnvironment` starts from
(src/unnamed/part_009, lines 117-126). -/
def saneBase (username home : String) : List String :=
  ["PATH=/usr/bin:/usr/sbin:/bin/:/sbin",
   "LANG=en_US.UTF-8",
   "LC_ALL=en_US.UTF-8",
   "HOME=" ++ home,
   "USER=" ++ username,
   "USERNAME=" ++ username,
   "CCACHE_DIR=" ++ pjoin BuildUserHome ".ccache",
   "SCCACHE_DIR=" ++ pjoin (pjoin BuildUserHome ".cache") "sccache"]

/-- The base `permitted` list (src/unnamed/part_009, lines 128-134) — note
that it already contains `"TERM"`. -/
def permittedBase : List String :=
  ["http_proxy", "https_proxy", "no_proxy", "ftp_proxy", "TERM"]

/-- One iteration of the passthrough loop (src/unnamed/part_009, lines
139-152): look the name up, fall back to its uppercase form, skip when both
are unset, otherwise append `name=value`. -/
def envLookupStep (getenv : String → String) (acc : List String)
    (p : String) : List String :=
  let env := getenv p
  let pe := if env = "" then (goToUpper p, getenv (goToUpper p)) else (p, env)
  if pe.2 = "" then acc else acc ++ [pe.1 ++ "=" ++ pe.2]

/-- Embedding of `SaneEnvironment` (src/unnamed/part_009, lines 116-159). -/
def SaneEnvironment (username home : String) (getenv : String → String)
    (disableColors : Bool) : List String :=
  let environment := saneBase username home
  let permitted := permittedBase ++ (if !disableColors then ["TERM"] else [])
  let environment := permitted.foldl (envLookupStep getenv) environment
  if disableColors then environment ++ ["TERM=dumb"] else environment

theorem mem_foldl_envLookupStep_of_mem_acc (getenv : String → String)
    (ps : List String) (acc : List String) (e : String) (he : e ∈ acc) :
    e ∈ ps.foldl (envLookupStep getenv) acc := by
  induction ps generalizing acc with
  | nil => exact he
  | cons p ps ih =>
    refine ih _ ?_
    unfold envLookupStep
    by_cases h1 : getenv p = "" <;>
      by_cases h2 : getenv (goToUpper p) = "" <;> simp [h1, h2, he]

theorem mem_foldl_envLookupStep_of_set (getenv : String → String)
    (ps : List String) (acc : List String) (p : String) (hp : p ∈ ps)
    (hset : getenv p ≠ "") :
    (p ++ "=" ++ getenv p) ∈ ps.foldl (envLookupStep getenv) acc := by
  induction ps generalizing acc with
  | nil => cases hp
  | cons q ps ih =>
    rcases List.mem_cons.mp hp with rfl | hmem
    · refine mem_foldl_envLookupStep_of_mem_acc getenv ps _ _ ?_
      unfold envLookupStep
      simp [hset]
    · exact ih _ hmem

theorem mem_foldl_envLookupStep_of_fallback (getenv : String → String)
    (ps : List String) (acc : List String) (p : String) (hp : p ∈ ps)
    (hunset : getenv p = "") (hupper : getenv (goToUpper p) ≠ "") :
    (goToUpper p ++ "=" ++ getenv (goToUpper p)) ∈
      ps.foldl (envLookupStep getenv) acc := by
  induction ps generalizing acc with
  | nil => cases hp
  | cons q ps ih =>
    rcases List.mem_cons.mp hp with rfl | hmem
    · refine mem_foldl_envLookupStep_of_mem_acc getenv ps _ _ ?_
      unfold envLookupStep
      simp [hunset, hupper]
    · exact ih _ hmem

theorem mem_foldl_envLookupStep (getenv : String → String) (ps : List String)
    (acc : List String) (e : String)
    (he : e ∈ ps.foldl (envLookupStep getenv) acc) :
    e ∈ acc ∨ ∃ p ∈ ps,
      (getenv p ≠ "" ∧ e = p ++ "=" ++ getenv p) ∨
      (getenv p = "" ∧ getenv (goToUpper p) ≠ "" ∧
        e = goToUpper p ++ "=" ++ getenv (goToUpper p)) := by
  induction ps generalizing acc with
  | nil => exact .inl he
  | cons p ps ih =>
    rcases ih _ he with hacc | ⟨q, hq, hrest⟩
    · unfold envLookupStep at hacc
      by_cases h1 : getenv p = ""
      · simp only [h1, if_true, ite_true] at hacc
        by_cases h2 : getenv (goToUpper p) = ""
        · simp only [h2, if_true, ite_true] at hacc
          exact .inl hacc
        · simp only [h2, if_false, ite_false, if_neg h2] at hacc
          rcases List.mem_append.mp hacc with h | h
          · exact .inl h
          · exact .inr ⟨p, List.mem_cons_self .., .inr ⟨h1, h2, List.mem_singleton.mp h⟩⟩
      · simp only [h1, if_false, ite_false, if_neg h1] at hacc
        rcases List.mem_append.mp hacc with h | h
        · exact .inl h
        · exact .inr ⟨p, List.mem_cons_self .., .inl ⟨h1, List.mem_singleton.mp h⟩⟩
    · exact .inr ⟨q, List.mem_cons_of_mem _ hq, hrest⟩

theorem foldl_envLookupStep_append (getenv : String → String)
    (ps : List String) (acc : List String) :
    ∃ rest, ps.foldl (envLookupStep getenv) acc = acc ++ rest := by
  induction ps generalizing acc with
  | nil => exact ⟨[], by simp⟩
  | cons p ps ih =>
    have hstep : ∃ d, envLookupStep getenv acc p = acc ++ d := by
      unfold envLookupStep
      by_cases h1 : getenv p = ""
      · by_cases h2 : getenv (goToUpper p) = ""
        · exact ⟨[], by simp [h1, h2]⟩
        · exact ⟨[goToUpper p ++ "=" ++ getenv (goToUpper p)], by simp [h1, h2]⟩
      · exact ⟨[p ++ "=" ++ getenv p], by simp [h1]⟩
    rcases hstep with ⟨d, hd⟩
    rcases ih (acc ++ d) with ⟨rest, hrest⟩
    exact ⟨d ++ rest, by simp only [List.foldl_cons, hd, hrest, List.append_assoc]⟩

/-- A host environment where only `TERM` is set (to `xterm`). -/
def exGetenv : String → String :=
  fun p => if p = "TERM" then "xterm" else ""

end Solbuild

/-- C7 counterexample: `"TERM"` sits in the base `permitted` list, so with
colors disabled and host `TERM=xterm` the sanitized environment still
contains `TERM=xterm` (besides the appended `TERM=dumb`) — contradicting the
claim that TERM propagates only when colors are not disabled. -/
theorem saneEnvironment_claim_counterexample :
    Solbuild.SaneEnvironment "build" "/home/build" Solbuild.exGetenv true =
      Solbuild.saneBase "build" "/home/build" ++ ["TERM=xterm", "TERM=dumb"] ∧
    "TERM=xterm" ∈
      Solbuild.SaneEnvironment "build" "/home/build" Solbuild.exGetenv true := by
  constructor
  · rfl
  · decide

/-- C7 (amended): the sanitized environment starts with exactly the eight
fixed entries (PATH, LANG, LC_ALL, HOME, USER, USERNAME, CCACHE_DIR,
SCCACHE_DIR); the host's `http_proxy`, `https_proxy`, `no_proxy`,
`ftp_proxy` and `TERM` pass through whenever set — `TERM` regardless of the
color setting (it is listed twice when colors are enabled), each name
falling back to its uppercase form when the lowercase one is unset; when
colors are disabled `TERM=dumb` is appended; and nothing else propagates.
Conjuncts: the eight-entry prefix; `TERM` passthrough when set; `TERM=dumb`
when colors are disabled; nothing beyond the base entries, the permitted
passthroughs and `TERM=dumb` (soundness); every permitted name set on the
host passes through; the uppercase fallback passes through when only it is
set; and with colors enabled a set `TERM` appears twice. -/
theorem saneEnvironment_propagation (username home : String)
    (getenv : String → String) (disableColors : Bool) :
    ((Solbuild.SaneEnvironment username home getenv disableColors).take 8 =
      Solbuild.saneBase username home) ∧
    (getenv "TERM" ≠ "" →
      ("TERM=" ++ getenv "TERM") ∈
        Solbuild.SaneEnvironment username home getenv disableColors) ∧
    (disableColors = true →
      "TERM=dumb" ∈
        Solbuild.SaneEnvironment username home getenv disableColors) ∧
    (∀ e ∈ Solbuild.SaneEnvironment username home getenv disableColors,
      e ∈ Solbuild.saneBase username home ∨
      (∃ p ∈ Solbuild.permittedBase,
        (getenv p ≠ "" ∧ e = p ++ "=" ++ getenv p) ∨
        (getenv p = "" ∧ getenv (Solbuild.goToUpper p) ≠ "" ∧
          e = Solbuild.goToUpper p ++ "=" ++ getenv (Solbuild.goToUpper p))) ∨
      (disableColors = true ∧ e = "TERM=dumb")) ∧
    (∀ p ∈ Solbuild.permittedBase, getenv p ≠ "" →
      (p ++ "=" ++ getenv p) ∈
        Solbuild.SaneEnvironment username home getenv disableColors) ∧
    (∀ p ∈ Solbuild.permittedBase, getenv p = "" →
      getenv (Solbuild.goToUpper p) ≠ "" →
      (Solbuild.goToUpper p ++ "=" ++ getenv (Solbuild.goToUpper p)) ∈
        Solbuild.SaneEnvironment username home getenv disableColors) ∧
    (disableColors = false → getenv "TERM" ≠ "" →
      ∃ l, Solbuild.SaneEnvironment username home getenv disableColors =
          l ++ ["TERM=" ++ getenv "TERM"] ∧
        ("TERM=" ++ getenv "TERM") ∈ l) := by
  have hbase : ∀ p, p ∈ Solbuild.permittedBase ++
      (if !disableColors then ["TERM"] else []) → p ∈ Solbuild.permittedBase := by
    intro p hp
    rcases List.mem_append.mp hp with h | h
    · exact h
    · cases disableColors <;> simp at h
      subst h
      decide
  rcases Solbuild.foldl_envLookupStep_append getenv
      (Solbuild.permittedBase ++ (if !disableColors then ["TERM"] else []))
      (Solbuild.saneBase username home) with ⟨rest, hrest⟩
  have hterm : "TERM" ∈ Solbuild.permittedBase ++
      (if !disableColors then ["TERM"] else []) := by
    refine List.mem_append_left _ ?_
    decide
  have htake : ∀ l₂ : List String,
      (Solbuild.saneBase username home ++ l₂).take 8 =
        Solbuild.saneBase username home := by
    intro l₂
    have h8 : (Solbuild.saneBase username home).length = 8 := rfl
    rw [← h8]
    exact List.take_left _ _
  refine ⟨?_, ?_, ?_, ?_, ?_, ?_, ?_⟩
  · unfold Solbuild.SaneEnvironment
    dsimp only
    rw [hrest]
    cases disableColors <;> simp [List.append_assoc, htake]
  · intro hset
    unfold Solbuild.SaneEnvironment
    dsimp only
    have hmem := Solbuild.mem_foldl_envLookupStep_of_set getenv
      (Solbuild.permittedBase ++ (if !disableColors then ["TERM"] else []))
      (Solbuild.saneBase username home) "TERM" hterm hset
    cases disableColors
    · simpa using hmem
    · simp at hmem ⊢
      exact Or.inl hmem
  · intro hdc
    unfold Solbuild.SaneEnvironment
    subst hdc
    simp
  · intro e he
    unfold Solbuild.SaneEnvironment at he
    dsimp only at he
    have hx : e ∈ (Solbuild.permittedBase ++
        (if !disableColors then ["TERM"] else [])).foldl
          (Solbuild.envLookupStep getenv) (Solbuild.saneBase username home) ∨
        (disableColors = true ∧ e = "TERM=dumb") := by
      cases disableColors
      · simp only [if_neg (by decide : ¬ (false = true))] at he
        exact .inl he
      · simp only [if_pos rfl] at he
        rcases List.mem_append.mp he with h | h
        · exact .inl h
        · exact .inr ⟨rfl, List.mem_singleton.mp h⟩
    rcases hx with hx | hx
    · rcases Solbuild.mem_foldl_envLookupStep getenv _ _ e hx with h | ⟨p, hp, hcase⟩
      · exact .inl h
      · exact .inr (.inl ⟨p, hbase p hp, hcase⟩)
    · exact .inr (.inr hx)
  · intro p hp hset
    unfold Solbuild.SaneEnvironment
    dsimp only
    have hmem := Solbuild.mem_foldl_envLookupStep_of_set getenv
      (Solbuild.permittedBase ++ (if !disableColors then ["TERM"] else []))
      (Solbuild.saneBase username home) p (List.mem_append_left _ hp) hset
    cases disableColors
    · simpa using hmem
    · simp at hmem ⊢
      exact Or.inl hmem
  · intro p hp hunset hupper
    unfold Solbuild.SaneEnvironment
    dsimp only
    have hmem := Solbuild.mem_foldl_envLookupStep_of_fallback getenv
      (Solbuild.permittedBase ++ (if !disableColors then ["TERM"] else []))
      (Solbuild.saneBase username home) p (List.mem_append_left _ hp) hunset
      hupper
    cases disableColors
    · simpa using hmem
    · simp at hmem ⊢
      exact Or.inl hmem
  · intro hdc hset
    subst hdc
    have hsplit : (Solbuild.permittedBase ++ ["TERM"]).foldl
        (Solbuild.envLookupStep getenv) (Solbuild.saneBase username home) =
        Solbuild.permittedBase.foldl (Solbuild.envLookupStep getenv)
          (Solbuild.saneBase username home) ++ ["TERM=" ++ getenv "TERM"] := by
      rw [List.foldl_append, List.foldl_cons, List.foldl_nil]
      unfold Solbuild.envLookupStep
      simp [hset]
    refine ⟨Solbuild.permittedBase.foldl (Solbuild.envLookupStep getenv)
      (Solbuild.saneBase username home), ?_, ?_⟩
    · show (Solbuild.permittedBase ++ ["TERM"]).foldl
          (Solbuild.envLookupStep getenv) (Solbuild.saneBase username home) =
        Solbuild.permittedBase.foldl (Solbuild.envLookupStep getenv)
          (Solbuild.saneBase username home) ++ ["TERM=" ++ getenv "TERM"]
      exact hsplit
    · exact Solbuild.mem_foldl_envLookupStep_of_set getenv
        Solbuild.permittedBase _ "TERM" (by decide) hset

/-- Witness for the C7 theorem at the concrete host environment `exGetenv`
(only `TERM=xterm` set) with colors enabled — in particular the last
conjunct exhibits `TERM=xterm` appearing twice. -/
theorem saneEnvironment_propagation_witness :
    ((Solbuild.SaneEnvironment "build" "/home/build" Solbuild.exGetenv
        false).take 8 = Solbuild.saneBase "build" "/home/build") ∧
    (Solbuild.exGetenv "TERM" ≠ "" →
      ("TERM=" ++ Solbuild.exGetenv "TERM") ∈
        Solbuild.SaneEnvironment "build" "/home/build" Solbuild.exGetenv false) ∧
    ((false : Bool) = true →
      "TERM=dumb" ∈
        Solbuild.SaneEnvironment "build" "/home/build" Solbuild.exGetenv false) ∧
    (∀ e ∈ Solbuild.SaneEnvironment "build" "/home/build" Solbuild.exGetenv false,
      e ∈ Solbuild.saneBase "build" "/home/build" ∨
      (∃ p ∈ Solbuild.permittedBase,
        (Solbuild.exGetenv p ≠ "" ∧ e = p ++ "=" ++ Solbuild.exGetenv p) ∨
        (Solbuild.exGetenv p = "" ∧
          Solbuild.exGetenv (Solbuild.goToUpper p) ≠ "" ∧
          e = Solbuild.goToUpper p ++ "=" ++
            Solbuild.exGetenv (Solbuild.goToUpper p))) ∨
      ((false : Bool) = true ∧ e = "TERM=dumb")) ∧
    (∀ p ∈ Solbuild.permittedBase, Solbuild.exGetenv p ≠ "" →
      (p ++ "=" ++ Solbuild.exGetenv p) ∈
        Solbuild.SaneEnvironment "build" "/home/build" Solbuild.exGetenv false) ∧
    (∀ p ∈ Solbuild.permittedBase, Solbuild.exGetenv p = "" →
      Solbuild.exGetenv (Solbuild.goToUpper p) ≠ "" →
      (Solbuild.goToUpper p ++ "=" ++
          Solbuild.exGetenv (Solbuild.goToUpper p)) ∈
        Solbuild.SaneEnvironment "build" "/home/build" Solbuild.exGetenv false) ∧
    ((false : Bool) = false → Solbuild.exGetenv "TERM" ≠ "" →
      ∃ l, Solbuild.SaneEnvironment "build" "/home/build" Solbuild.exGetenv
            false = l ++ ["TERM=" ++ Solbuild.exGetenv "TERM"] ∧
        ("TERM=" ++ Solbuild.exGetenv "TERM") ∈ l) :=
  saneEnvironment_propagation "build" "/home/build" Solbuild.exGetenv false

namespace Solbuild

/-! ## builder/source/simple.go: SimpleSource fetch & cache

The filesystem is modelled explicitly (regular files with contents,
directories, and symlinks stored as written — a relative target resolved
against the link's directory); `os.Stat`-based `PathExists` follows one
symlink level, which is all the source cache ever creates.  Downloaded bytes
are `List Nat`; the SHA-256 / SHA-1 primitives and the network transfer are
oracles in `SourceEnv`.  `grab`'s `SetChecksum` comparison of raw digest
bytes and Go's `hex` encoding (lowercase output, case-insensitive input) are
modelled exactly. -/

/-- Strip `pre` from the front of `s`. -/
def chopFront : List Char → List Char → Option (List Char)
  | [], s => some s
  | _, [] => none
  | p :: ps, c :: cs => if p = c then chopFront ps cs else none

/-- The parent directory of a clean path: everything before the last `/`. -/
def dirOf (p : String) : String :=
  ⟨((p.toList.reverse.dropWhile (fun c => c ≠ '/')).drop 1).reverse⟩

/-- A model filesystem: regular files with their contents, directories, and
symlinks `(name, target-as-written)`. -/
structure FS where
  files : List (String × List Nat)
  dirs : List String
  links : List (String × String)
deriving Repr, DecidableEq

/-- A file or directory entry at exactly this path. -/
def FS.entryExists (fs : FS) (p : String) : Bool :=
  fs.files.any (fun f => f.1 = p) || fs.dirs.any (fun d => d = p)

/-- `builder.PathExists` (`os.Stat` succeeds): a real entry, or an entry
reached through one symlink whose relative target resolves against the
link's directory. -/
def FS.pathExists (fs : FS) (p : String) : Bool :=
  fs.entryExists p ||
  fs.links.any (fun lt =>
    match chopFront (lt.1 ++ "/").toList p.toList with
    | some rest => fs.entryExists (pjoin (pjoin (dirOf lt.1) lt.2) ⟨rest⟩)
    | none => p = lt.1 && fs.entryExists (pjoin (dirOf lt.1) lt.2))

end Solbuild

namespace Solbuild

/-! ## part_011: the dependency resolver

`Resolver`'s two Go maps are modelled as association lists with first-insert-
wins insertion, exactly what `AddIndex`'s `if _, ok := m[k]; !ok` produces;
`index.Package` (from libeopkg) is modelled by the fields the resolver
reads.  The recursive `dfs` closure is embedded with an explicit fuel
argument; `Query` always supplies `queryFuel r = |nameToPkg| + 1`, which is
proved sufficient (`dfs_contract` shows the fuel error is unreachable), so
the fuel is an artifact of the embedding, not a semantic change.  Go's
`slices.SortFunc` (an unstable sort by name) is modelled by an insertion
sort; the final theorem shows the sorted output has pairwise-distinct names,
so every correctly-sorting permutation yields this same output. -/

/-- The fields of `index.Package` the resolver reads. -/
structure IdxPackage where
  name : String
  packageHash : String
  partOf : String
  runtimeDeps : List String
  pkgConfig : List String
  pkgConfig32 : List String
deriving Repr, DecidableEq

/-- `Resolver` (src/unnamed/part_011, lines 12-16): the `providers` and
`nameToPkg` maps as association lists. -/
structure Resolver where
  providers : List (String × String)
  nameToPkg : List (String × IdxPackage)
deriving Repr, DecidableEq

/-- Map lookup. -/
def lookupA {α : Type} (m : List (String × α)) (k : String) : Option α :=
  match m.find? (fun e => e.1 == k) with
  | some kv => some kv.2
  | none => none

/-- The `if _, ok := m[k]; !ok { m[k] = v }` insertion `AddIndex` uses. -/
def insertAbsent {α : Type} (m : List (String × α)) (k : String) (v : α) :
    List (String × α) :=
  if (lookupA m k).isSome then m else m ++ [(k, v)]

/-- Embedding of `NewResolver` (src/unnamed/part_011, lines 23-29). -/
def NewResolver : Resolver := { providers := [], nameToPkg := [] }

/-- Embedding of `Resolver.AddIndex` (src/unnamed/part_011, lines 31-52). -/
def Resolver.AddIndex (r : Resolver) (pkgs : List IdxPackage) : Resolver :=
  pkgs.foldl (fun r pkg =>
    let r1 : Resolver :=
      { r with nameToPkg := insertAbsent r.nameToPkg pkg.name pkg }
    let r2 : Resolver := pkg.pkgConfig.foldl (fun r pc =>
      { r with providers :=
          insertAbsent r.providers ("pkgconfig(" ++ pc ++ ")") pkg.name }) r1
    pkg.pkgConfig32.foldl (fun r pc =>
      { r with providers :=
          insertAbsent r.providers ("pkgconfig32(" ++ pc ++ ")") pkg.name }) r2) r

/-- A resolver built from a sequence of indices, as every reachable resolver
state is. -/
def buildResolver (idxs : List (List IdxPackage)) : Resolver :=
  idxs.foldl Resolver.AddIndex NewResolver

/-- Well-formedness of reachable resolver states: `nameToPkg` maps a name to
a package carrying that name (AddIndex only inserts `m[pkg.Name] = pkg`). -/
def Resolver.WF (r : Resolver) : Prop :=
  ∀ kp ∈ r.nameToPkg, kp.2.name = kp.1

/-- The provider substitution at the top of `dfs`
(src/unnamed/part_011, lines 59-61). -/
def resolveName (r : Resolver) (n : String) : String :=
  match lookupA r.providers n with
  | some p => p
  | none => n

/-- Whether a name is in `nameToPkg`. -/
def isKeyB (r : Resolver) (x : String) : Bool :=
  (lookupA r.nameToPkg x).isSome

/-- The errors the embedded `dfs` can produce: the Go unknown-package error
`errors.New("Unable to find provider or package " + name)`, carried as the
offending name, plus the artificial fuel error proved unreachable below. -/
inductive DfsErr where
  | fuel
  | unknown (name : String)
deriving Repr, DecidableEq

/-- The mutable state of `Query`'s closure: the `visited` set (as the list of
names in visit order, newest first) and the accumulated `res`. -/
abbrev St := List String × List Dep

/-- The `for _, dep := range …RuntimeDependencies` loop body shared by `dfs`
(src/unnamed/part_011, lines 74-78), by the `system.base`/`system.devel` and
emul32 seed loops, and by the seed loop at lines 106-111: run `step` on each
name in order; an error freezes the state and is returned. -/
def dfsList (step : String → St → St × Option DfsErr) :
    List String → St → St × Option DfsErr
  | [], st => (st, none)
  | d :: ds, st =>
    match step d st with
    | (st1, some e) => (st1, some e)
    | (st1, none) => dfsList step ds st1

/-- Embedding of the `dfs` closure (src/unnamed/part_011, lines 57-88):
substitute a provider, skip visited names, fail on unknown names, otherwise
mark visited, emit the `Dep`, and recurse into the runtime dependencies. -/
def dfs (r : Resolver) : Nat → String → St → St × Option DfsErr
  | 0, _, st => (st, some .fuel)
  | fuel + 1, name0, st =>
    let name := resolveName r name0
    if st.1.contains name then (st, none)
    else
      match lookupA r.nameToPkg name with
      | none => (st, some (.unknown name))
      | some pkg =>
        dfsList (dfs r fuel) pkg.runtimeDeps
          (name :: st.1, st.2 ++ [{ name := pkg.name, hash := pkg.packageHash }])

/-- Fuel that `Query` supplies to every `dfs` call; proved sufficient. -/
def queryFuel (r : Resolver) : Nat := r.nameToPkg.length + 1

/-- The name-ascending comparator of the final
`slices.SortFunc(res, cmp.Compare(a.Name, b.Name))`. -/
def depLe (a b : Dep) : Prop := a.name ≤ b.name

instance : DecidableRel depLe := fun a b =>
  decidable_of_iff (¬ b.name.data < a.name.data) (by
    constructor
    · intro h
      show a.name ≤ b.name
      rw [String.le_iff_toList_le]
      exact not_lt.mp (by simpa [String.lt_iff_toList_lt] using h)
    · intro h
      have hl := String.le_iff_toList_le.mp h
      simpa [String.lt_iff_toList_lt] using not_lt.mpr hl)

instance : IsTotal Dep depLe := ⟨fun a b => le_total a.name b.name⟩

instance : IsTrans Dep depLe := ⟨fun _ _ _ => le_trans⟩

/-- The final sort of `Query` (src/unnamed/part_011, line 113). -/
def sortDepsByName (l : List Dep) : List Dep := List.insertionSort depLe l

/-- The `withBase || withDevel` and `emul32` seeding loops at the top of
`Query` (src/unnamed/part_011, lines 90-104), whose `dfs` errors are
ignored.  The base/devel loop is Go's `for _, pkg := range r.nameToPkg` —
a map range whose iteration order is deliberately unspecified and varies
from run to run — so that order is an explicit input `ord` here: a run of
the program corresponds to some permutation `ord` of the `nameToPkg`
entries.  This state does not depend on the seed list, but (because the
ignored `dfs` errors abort a member's walk midway) it genuinely depends
on `ord`. -/
def queryStart (r : Resolver) (ord : List (String × IdxPackage))
    (withBase withDevel emul32 : Bool) : St :=
  let st : St := ([], [])
  let st := if withBase || withDevel then
      ord.foldl (fun st kp =>
        if withBase && kp.2.partOf == "system.base" then
          (dfs r (queryFuel r) kp.2.name st).1
        else if withDevel && kp.2.partOf == "system.devel" then
          (dfs r (queryFuel r) kp.2.name st).1
        else st) st
    else st
  if emul32 then
    ["glibc-32bit-devel", "libgcc-32bit", "libstdc++-32bit"].foldl
      (fun st p => (dfs r (queryFuel r) p st).1) st
  else st

/-- Embedding of `Resolver.Query` (src/unnamed/part_011, lines 54-115): seed
the walk with `system.base`/`system.devel` members — ranged over in the
unspecified map order `ord`, see `queryStart` — and the emul32 trio when
requested (errors ignored, exactly as in the source), then walk the seed
list (the first error is returned together with the partial `res`), and on
success sort the result by name. -/
def Resolver.Query (r : Resolver) (ord : List (String × IdxPackage))
    (pkgs : List String) (withBase withDevel emul32 : Bool) :
    List Dep × Option DfsErr :=
  match dfsList (dfs r (queryFuel r)) pkgs (queryStart r ord withBase withDevel emul32) with
  | (st1, some e) => (st1.2, some e)
  | (st1, none) => (sortDepsByName st1.2, none)

/-- Resolved successors of a node: its runtime dependencies after provider
substitution (empty for unknown names). -/
def succs (r : Resolver) (x : String) : List String :=
  match lookupA r.nameToPkg x with
  | some pkg => pkg.runtimeDeps.map (resolveName r)
  | none => []

/-- Reachability from `x` through resolved dependency edges along nodes that
all avoid `v`. -/
inductive ReachAvoid (r : Resolver) (v : List String) : String → String → Prop where
  | refl (x : String) (hx : x ∉ v) : ReachAvoid r v x x
  | tail {x y z : String} (h : ReachAvoid r v x y) (hz : z ∈ succs r y)
      (hzv : z ∉ v) : ReachAvoid r v x z

theorem ReachAvoid.start_not_mem {r : Resolver} {v : List String} {x y : String}
    (h : ReachAvoid r v x y) : x ∉ v := by
  induction h with
  | refl hx => exact hx
  | tail h hz hzv ih => exact ih

theorem ReachAvoid.end_not_mem {r : Resolver} {v : List String} {x y : String}
    (h : ReachAvoid r v x y) : y ∉ v := by
  cases h with
  | refl hx => exact hx
  | tail h hz hzv => exact hzv

theorem ReachAvoid.mono {r : Resolver} {v w : List String} {x y : String}
    (hsub : ∀ a ∈ v, a ∈ w) (h : ReachAvoid r w x y) : ReachAvoid r v x y := by
  induction h with
  | refl hx => exact .refl _ (fun hxv => hx (hsub _ hxv))
  | tail h hz hzv ih => exact .tail ih hz (fun hzv2 => hzv (hsub _ hzv2))

theorem ReachAvoid.compose {r : Resolver} {v : List String} {x y z : String}
    (h1 : ReachAvoid r v x y) (h2 : ReachAvoid r v y z) : ReachAvoid r v x z := by
  induction h2 with
  | refl hw => exact h1
  | tail h hz hzv ih => exact .tail ih hz hzv

theorem reachAvoid_decomp {r : Resolver} {v : List String} {x y : String}
    (h : ReachAvoid r v x y) :
    y = x ∨ ∃ z ∈ succs r x, ReachAvoid r (x :: v) z y := by
  induction h with
  | refl hx => exact .inl rfl
  | @tail w z h hz hzv ih =>
    rcases ih with hw | ⟨d, hd, hra⟩
    · rw [hw] at hz
      by_cases hzx : z = x
      · exact .inl hzx
      · refine .inr ⟨z, hz, .refl z ?_⟩
        intro hmem
        rcases List.mem_cons.mp hmem with h1 | h2
        · exact hzx h1
        · exact hzv h2
    · by_cases hzx : z = x
      · exact .inl hzx
      · refine .inr ⟨d, hd, .tail hra hz ?_⟩
        intro hmem
        rcases List.mem_cons.mp hmem with h1 | h2
        · exact hzx h1
        · exact hzv h2

/-- The `Dep` emitted for a visited name. -/
def depOf (r : Resolver) (x : String) : Dep :=
  match lookupA r.nameToPkg x with
  | some pkg => { name := pkg.name, hash := pkg.packageHash }
  | none => { name := x, hash := "" }

/-- Invariant of the walk state: the visited list has no duplicates, every
visited name is known, and `res` lists exactly the visited names in visit
order with their emitted `Dep`s. -/
def StInv (r : Resolver) (st : St) : Prop :=
  st.1.Nodup ∧ (∀ x ∈ st.1, isKeyB r x = true) ∧
    st.2 = st.1.reverse.map (depOf r)

/-- Number of known names not yet visited: the fuel measure. -/
def freshCount (r : Resolver) (v : List String) : Nat :=
  ((r.nameToPkg.map Prod.fst).filter (fun k => !v.contains k)).length

/-- What a successful walk from `st.1` covering `roots` guarantees about the
final visited list `v'`: everything reachable (avoiding the initial visited
set) is known and visited; nothing else was added; and newly visited nodes
are closed under resolved dependencies. -/
def PostOk (r : Resolver) (v : List String) (roots : List String)
    (v' : List String) : Prop :=
  (∀ n ∈ roots, ∀ y, ReachAvoid r v (resolveName r n) y →
    isKeyB r y = true ∧ y ∈ v') ∧
  (∀ x ∈ v', x ∈ v ∨ ∃ n ∈ roots, ReachAvoid r v (resolveName r n) x) ∧
  (∀ x ∈ v', x ∉ v → ∀ z ∈ succs r x, z ∈ v')

/-- What a failed walk guarantees: the offending name is unknown and
reachable from one of the roots. -/
def PostErr (r : Resolver) (v : List String) (roots : List String)
    (m : String) : Prop :=
  isKeyB r m = false ∧ ∃ n ∈ roots, ReachAvoid r v (resolveName r n) m

/-- The contract a single walk step satisfies on states with enough fuel. -/
def DfsContract (r : Resolver) (step : String → St → St × Option DfsErr)
    (F : Nat) : Prop :=
  ∀ name st, StInv r st → freshCount r st.1 < F →
    StInv r (step name st).1 ∧
    (∀ x ∈ st.1, x ∈ (step name st).1.1) ∧
    (step name st).2 ≠ some .fuel ∧
    ((step name st).2 = none → PostOk r st.1 [name] (step name st).1.1) ∧
    (∀ m, (step name st).2 = some (.unknown m) → PostErr r st.1 [name] m)

/-- The same contract for a walk over a list of names. -/
def ListContract (r : Resolver) (step : String → St → St × Option DfsErr)
    (F : Nat) : Prop :=
  ∀ ds st, StInv r st → freshCount r st.1 < F →
    StInv r (dfsList step ds st).1 ∧
    (∀ x ∈ st.1, x ∈ (dfsList step ds st).1.1) ∧
    (dfsList step ds st).2 ≠ some .fuel ∧
    ((dfsList step ds st).2 = none →
      PostOk r st.1 ds (dfsList step ds st).1.1) ∧
    (∀ m, (dfsList step ds st).2 = some (.unknown m) → PostErr r st.1 ds m)

theorem length_filter_lt_length_filter {α : Type} {p q : α → Bool}
    (l : List α) (himp : ∀ x, p x = true → q x = true) (a : α) (ha : a ∈ l)
    (hqa : q a = true) (hpa : p a = false) :
    (l.filter p).length < (l.filter q).length := by
  induction l with
  | nil => cases ha
  | cons b t ih =>
    rcases List.mem_cons.mp ha with rfl | hat
    · rw [List.filter_cons, List.filter_cons, hpa, hqa]
      simp only [if_false, ite_false, if_true, ite_true, List.length_cons,
        Bool.false_eq_true]
      exact Nat.lt_succ_of_le
        ((List.monotone_filter_right t himp).length_le)
    · rw [List.filter_cons, List.filter_cons]
      cases hpb : p b
      · cases hqb : q b
        · simp only [Bool.false_eq_true, if_false, ite_false]
          exact ih hat
        · simp only [Bool.false_eq_true, if_false, ite_false, if_true,
            ite_true, List.length_cons]
          exact Nat.lt_succ_of_lt (ih hat)
      · rw [himp b hpb]
        simp only [if_true, ite_true, List.length_cons]
        exact Nat.succ_lt_succ (ih hat)

theorem isKeyB_iff_mem_keys (r : Resolver) (k : String) :
    isKeyB r k = true ↔ k ∈ r.nameToPkg.map Prod.fst := by
  constructor
  · intro h
    unfold isKeyB lookupA at h
    rcases hf : r.nameToPkg.find? (fun e => e.1 == k) with _ | kv
    · rw [hf] at h
      simp at h
    · exact List.mem_map.mpr ⟨kv, List.mem_of_find?_eq_some hf,
        by simpa using List.find?_some hf⟩
  · intro hmem
    unfold isKeyB lookupA
    rcases hf : r.nameToPkg.find? (fun e => e.1 == k) with _ | kv
    · rcases List.mem_map.mp hmem with ⟨e, he, hek⟩
      have := List.find?_eq_none.mp hf e he
      simp [hek] at this
    · rw [hf]
      simp

theorem freshCount_mono (r : Resolver) {v w : List String}
    (hsub : ∀ x ∈ v, x ∈ w) : freshCount r w ≤ freshCount r v := by
  refine (List.monotone_filter_right _ ?_).length_le
  intro a ha
  have haw : a ∉ w := by simpa using ha
  have hav : a ∉ v := fun hin => haw (hsub a hin)
  simpa using hav

theorem freshCount_lt_cons (r : Resolver) {v : List String} {m : String}
    (hkey : isKeyB r m = true) (hm : m ∉ v) :
    freshCount r (m :: v) < freshCount r v := by
  refine length_filter_lt_length_filter _ ?_ m
    ((isKeyB_iff_mem_keys r m).mp hkey) (by simpa using hm) (by simp)
  intro x hx
  have hxmv : x ∉ m :: v := by simpa using hx
  have hxv : x ∉ v := fun hin => hxmv (List.mem_cons_of_mem _ hin)
  simpa using hxv

theorem freshCount_lt_queryFuel (r : Resolver) (v : List String) :
    freshCount r v < queryFuel r := by
  unfold freshCount queryFuel
  have h1 := List.length_filter_le (fun k => !v.contains k)
    (r.nameToPkg.map Prod.fst)
  rw [List.length_map] at h1
  omega

theorem reachAvoid_cons_iff (r : Resolver) (v : List String) (m y : String)
    (hm : m ∉ v) :
    ReachAvoid r v m y ↔
      y = m ∨ ∃ z ∈ succs r m, ReachAvoid r (m :: v) z y := by
  constructor
  · exact fun h => reachAvoid_decomp h
  · rintro (rfl | ⟨z, hz, hra⟩)
    · exact .refl _ hm
    · have hzv : z ∉ v := fun hzin => hra.start_not_mem (List.mem_cons_of_mem _ hzin)
      have h1 : ReachAvoid r v m z := .tail (.refl m hm) hz hzv
      exact h1.compose (hra.mono (fun a ha => List.mem_cons_of_mem _ ha))

theorem reachAvoid_absorb {r : Resolver} {v v₁ : List String} {root y : String}
    (_hsub : ∀ a ∈ v, a ∈ v₁)
    (hclosed : ∀ x ∈ v₁, x ∉ v → ∀ z ∈ succs r x, z ∈ v₁)
    (h : ReachAvoid r v root y) : y ∈ v₁ ∨ ReachAvoid r v₁ root y := by
  induction h with
  | refl hx =>
    by_cases ha : root ∈ v₁
    · exact .inl ha
    · exact .inr (.refl root ha)
  | @tail w z h hz hzv ih =>
    rcases ih with hw | hra
    · exact .inl (hclosed w hw h.end_not_mem z hz)
    · by_cases hz1 : z ∈ v₁
      · exact .inl hz1
      · exact .inr (.tail hra hz hz1)

theorem postOk_compose {r : Resolver} {v v₁ v₂ : List String} {d : String}
    {ds : List String}
    (h1 : PostOk r v [d] v₁) (h2 : PostOk r v₁ ds v₂)
    (hsub01 : ∀ a ∈ v, a ∈ v₁) (hsub12 : ∀ a ∈ v₁, a ∈ v₂)
    (hkeys1 : ∀ x ∈ v₁, isKeyB r x = true) :
    PostOk r v (d :: ds) v₂ := by
  obtain ⟨h1a, h1b, h1c⟩ := h1
  obtain ⟨h2a, h2b, h2c⟩ := h2
  refine ⟨?_, ?_, ?_⟩
  · intro n hn y hra
    rcases List.mem_cons.mp hn with rfl | hnds
    · obtain ⟨hk, hm⟩ := h1a n (List.mem_singleton.mpr rfl) y hra
      exact ⟨hk, hsub12 y hm⟩
    · rcases reachAvoid_absorb hsub01 h1c hra with hy1 | hra1
      · exact ⟨hkeys1 y hy1, hsub12 y hy1⟩
      · exact h2a n hnds y hra1
  · intro x hx
    rcases h2b x hx with hx1 | ⟨n, hn, hra⟩
    · rcases h1b x hx1 with hxv | ⟨n, hn, hra⟩
      · exact .inl hxv
      · obtain rfl := List.mem_singleton.mp hn
        exact .inr ⟨n, List.mem_cons_self .., hra⟩
    · exact .inr ⟨n, List.mem_cons_of_mem _ hn, hra.mono hsub01⟩
  · intro x hx hxv z hz
    by_cases hx1 : x ∈ v₁
    · exact hsub12 z (h1c x hx1 hxv z hz)
    · exact h2c x hx hx1 z hz

theorem postOk_visit {r : Resolver} {v : List String} {m : String}
    {deps : List String} {v' : List String}
    (hm : m ∉ v) (hkey : isKeyB r m = true)
    (hsuccs : succs r m = deps.map (resolveName r))
    (hmem : ∀ x ∈ m :: v, x ∈ v')
    (hpost : PostOk r (m :: v) deps v') :
    (∀ y, ReachAvoid r v m y → isKeyB r y = true ∧ y ∈ v') ∧
    (∀ x ∈ v', x ∈ v ∨ ReachAvoid r v m x) ∧
    (∀ x ∈ v', x ∉ v → ∀ z ∈ succs r x, z ∈ v') := by
  obtain ⟨h1, h2, h3⟩ := hpost
  refine ⟨?_, ?_, ?_⟩
  · intro y hra
    rcases (reachAvoid_cons_iff r v m y hm).mp hra with rfl | ⟨z, hz, hra2⟩
    · exact ⟨hkey, hmem _ (List.mem_cons_self ..)⟩
    · rw [hsuccs] at hz
      rcases List.mem_map.mp hz with ⟨d, hd, rfl⟩
      exact h1 d hd y hra2
  · intro x hx
    rcases h2 x hx with hxv | ⟨n, hn, hra⟩
    · rcases List.mem_cons.mp hxv with rfl | hxv2
      · exact .inr (.refl _ hm)
      · exact .inl hxv2
    · refine .inr ((reachAvoid_cons_iff r v m x hm).mpr
        (.inr ⟨resolveName r n, ?_, hra⟩))
      rw [hsuccs]
      exact List.mem_map.mpr ⟨n, hn, rfl⟩
  · intro x hx hxv z hz
    by_cases hxm : x = m
    · subst hxm
      rw [hsuccs] at hz
      rcases List.mem_map.mp hz with ⟨d, hd, rfl⟩
      by_cases hzin : resolveName r d ∈ x :: v
      · exact hmem _ hzin
      · exact (h1 d hd _ (.refl _ hzin)).2
    · have hxmv : x ∉ m :: v := by
        intro hc
        rcases List.mem_cons.mp hc with h | h
        · exact hxm h
        · exact hxv h
      exact h3 x hx hxmv z hz

theorem postErr_visit {r : Resolver} {v : List String} {m m' : String}
    {deps : List String}
    (hm : m ∉ v)
    (hsuccs : succs r m = deps.map (resolveName r))
    (herr : PostErr r (m :: v) deps m') :
    isKeyB r m' = false ∧ ReachAvoid r v m m' := by
  obtain ⟨hk, n, hn, hra⟩ := herr
  refine ⟨hk, (reachAvoid_cons_iff r v m m' hm).mpr
    (.inr ⟨resolveName r n, ?_, hra⟩)⟩
  rw [hsuccs]
  exact List.mem_map.mpr ⟨n, hn, rfl⟩

theorem dfsList_contract (r : Resolver)
    (step : String → St → St × Option DfsErr) (F : Nat)
    (hstep : DfsContract r step F) : ListContract r step F := by
  intro ds
  induction ds with
  | nil =>
    intro st hinv hfc
    refine ⟨hinv, fun x hx => hx, by simp [dfsList], ?_, by simp [dfsList]⟩
    intro _
    exact ⟨fun n hn => absurd hn (List.not_mem_nil n),
      fun x hx => .inl hx, fun x hx hxv => absurd hx hxv⟩
  | cons d ds ih =>
    intro st hinv hfc
    obtain ⟨hinv1, hmem1, hfuel1, hok1, herr1⟩ := hstep d st hinv hfc
    rcases hres : step d st with ⟨st1, e1⟩
    rw [hres] at hinv1 hmem1 hfuel1 hok1 herr1
    have hrun : dfsList step (d :: ds) st =
        match step d st with
        | (st1, some e) => (st1, some e)
        | (st1, none) => dfsList step ds st1 := rfl
    rw [hres] at hrun
    cases e1 with
    | some e =>
      rw [hrun]
      refine ⟨hinv1, hmem1, ?_, by simp, ?_⟩
      · simpa using hfuel1
      · intro m hm
        simp only [Option.some.injEq] at hm
        obtain ⟨hk, n, hn, hra⟩ := herr1 m (by rw [hm])
        obtain rfl := List.mem_singleton.mp hn
        exact ⟨hk, n, List.mem_cons_self .., hra⟩
    | none =>
      rw [hrun]
      have hfc1 : freshCount r st1.1 < F :=
        lt_of_le_of_lt (freshCount_mono r hmem1) hfc
      obtain ⟨hinv2, hmem2, hfuel2, hok2, herr2⟩ := ih st1 hinv1 hfc1
      refine ⟨hinv2, fun x hx => hmem2 x (hmem1 x hx), hfuel2, ?_, ?_⟩
      · intro hnone
        exact postOk_compose (hok1 rfl) (hok2 hnone) hmem1 hmem2 hinv1.2.1
      · intro m hm
        obtain ⟨hk, n, hn, hra⟩ := herr2 m hm
        exact ⟨hk, n, List.mem_cons_of_mem _ hn, hra.mono hmem1⟩

theorem dfs_contract (r : Resolver) :
    ∀ fuel, DfsContract r (dfs r fuel) fuel := by
  intro fuel
  induction fuel with
  | zero =>
    intro name st hinv hfc
    exact absurd hfc (Nat.not_lt_zero _)
  | succ fuel ih =>
    intro name st hinv hfc
    by_cases hvis : st.1.contains (resolveName r name)
    · have hmem : resolveName r name ∈ st.1 := by simpa using hvis
      have hrun : dfs r (fuel + 1) name st = (st, none) := by
        simp [dfs, hmem]
      rw [hrun]
      refine ⟨hinv, fun x hx => hx, by simp, ?_, by simp⟩
      intro _
      refine ⟨?_, fun x hx => .inl hx, fun x hx hxv => absurd hx hxv⟩
      intro n hn y hra
      obtain rfl := List.mem_singleton.mp hn
      exact absurd hmem hra.start_not_mem
    · have hnvis : resolveName r name ∉ st.1 := by simpa using hvis
      rcases hlook : lookupA r.nameToPkg (resolveName r name) with _ | pkg
      · have hrun : dfs r (fuel + 1) name st =
            (st, some (.unknown (resolveName r name))) := by
          simp [dfs, hnvis, hlook]
        rw [hrun]
        refine ⟨hinv, fun x hx => hx, by simp, by simp, ?_⟩
        intro m hm
        simp only [Option.some.injEq, DfsErr.unknown.injEq] at hm
        subst hm
        exact ⟨by simp [isKeyB, hlook], name, List.mem_singleton.mpr rfl,
          .refl _ hnvis⟩
      · have hrun : dfs r (fuel + 1) name st =
            dfsList (dfs r fuel) pkg.runtimeDeps
              (resolveName r name :: st.1,
                st.2 ++ [{ name := pkg.name, hash := pkg.packageHash }]) := by
          simp [dfs, hnvis, hlook]
        rw [hrun]
        have hkey : isKeyB r (resolveName r name) = true := by
          simp [isKeyB, hlook]
        have hsuccs : succs r (resolveName r name) =
            pkg.runtimeDeps.map (resolveName r) := by
          simp [succs, hlook]
        have hinv1 : StInv r (resolveName r name :: st.1,
            st.2 ++ [{ name := pkg.name, hash := pkg.packageHash }]) := by
          refine ⟨List.nodup_cons.mpr ⟨hnvis, hinv.1⟩, ?_, ?_⟩
          · intro x hx
            rcases List.mem_cons.mp hx with rfl | hx2
            · exact hkey
            · exact hinv.2.1 x hx2
          · rw [hinv.2.2]
            simp [List.reverse_cons, depOf, hlook]
        have hfc1 : freshCount r (resolveName r name :: st.1) < fuel := by
          have hlt := freshCount_lt_cons r hkey hnvis
          omega
        obtain ⟨hinv2, hmem2, hfuel2, hok2, herr2⟩ :=
          dfsList_contract r (dfs r fuel) fuel ih pkg.runtimeDeps _ hinv1 hfc1
        have hmemv : ∀ x ∈ resolveName r name :: st.1,
            x ∈ (dfsList (dfs r fuel) pkg.runtimeDeps
              (resolveName r name :: st.1,
                st.2 ++ [{ name := pkg.name, hash := pkg.packageHash }])).1.1 :=
          hmem2
        refine ⟨hinv2, ?_, hfuel2, ?_, ?_⟩
        · intro x hx
          exact hmemv x (List.mem_cons_of_mem _ hx)
        · intro hnone
          obtain ⟨t1, t2, t3⟩ :=
            postOk_visit hnvis hkey hsuccs hmemv (hok2 hnone)
          refine ⟨?_, ?_, t3⟩
          · intro n hn y hra
            obtain rfl := List.mem_singleton.mp hn
            exact t1 y hra
          · intro x hx
            exact (t2 x hx).imp id
              (fun h => ⟨name, List.mem_singleton.mpr rfl, h⟩)
        · intro m hm
          obtain ⟨hk, hra⟩ := postErr_visit hnvis hsuccs (herr2 m hm)
          exact ⟨hk, name, List.mem_singleton.mpr rfl, hra⟩

theorem wf_lookup {r : Resolver} (hwf : r.WF) {k : String} {p : IdxPackage}
    (h : lookupA r.nameToPkg k = some p) : p.name = k := by
  unfold lookupA at h
  rcases hf : r.nameToPkg.find? (fun e => e.1 == k) with _ | kv
  · rw [hf] at h
    simp at h
  · rw [hf] at h
    simp only [Option.some.injEq] at h
    subst h
    have h1 : kv.1 = k := by simpa using List.find?_some hf
    rw [hwf kv (List.mem_of_find?_eq_some hf), h1]

theorem providersFold_nameToPkg {β : Type}
    (upd : Resolver → β → List (String × String)) (l : List β) :
    ∀ r0 : Resolver,
      (l.foldl (fun r pc => { r with providers := upd r pc }) r0).nameToPkg =
        r0.nameToPkg := by
  induction l with
  | nil => intro r0; rfl
  | cons b bs ih => intro r0; exact ih _

theorem wf_addIndex {r : Resolver} (hwf : r.WF) (pkgs : List IdxPackage) :
    (r.AddIndex pkgs).WF := by
  unfold Resolver.AddIndex
  induction pkgs generalizing r with
  | nil => exact hwf
  | cons pkg pkgs ih =>
    refine ih ?_
    intro kp hkp
    rw [providersFold_nameToPkg, providersFold_nameToPkg] at hkp
    unfold insertAbsent at hkp
    by_cases hpresent : (lookupA r.nameToPkg pkg.name).isSome
    · rw [if_pos hpresent] at hkp
      exact hwf kp hkp
    · rw [if_neg hpresent] at hkp
      rcases List.mem_append.mp hkp with h | h
      · exact hwf kp h
      · obtain rfl := List.mem_singleton.mp h
        rfl

theorem wf_buildResolver (idxs : List (List IdxPackage)) :
    (buildResolver idxs).WF := by
  unfold buildResolver
  have : NewResolver.WF := fun kp hkp => absurd hkp (List.not_mem_nil kp)
  revert this
  generalize NewResolver = r0
  intro h0
  induction idxs generalizing r0 with
  | nil => exact h0
  | cons idx idxs ih => exact ih _ (wf_addIndex h0 idx)

theorem stInv_start (r : Resolver) : StInv r ([], []) :=
  ⟨List.nodup_nil, fun x hx => absurd hx (List.not_mem_nil x), rfl⟩

theorem stInv_dfsStep (r : Resolver) (n : String) (st : St)
    (hinv : StInv r st) : StInv r (dfs r (queryFuel r) n st).1 :=
  (dfs_contract r (queryFuel r) n st hinv (freshCount_lt_queryFuel r st.1)).1

theorem stInv_queryStart (r : Resolver) (ord : List (String × IdxPackage))
    (wb wd em : Bool) : StInv r (queryStart r ord wb wd em) := by
  unfold queryStart
  have hbase : ∀ (l : List (String × IdxPackage)) (st : St), StInv r st →
      StInv r (l.foldl (fun st kp =>
        if wb && kp.2.partOf == "system.base" then
          (dfs r (queryFuel r) kp.2.name st).1
        else if wd && kp.2.partOf == "system.devel" then
          (dfs r (queryFuel r) kp.2.name st).1
        else st) st) := by
    intro l
    induction l with
    | nil => intro st h; exact h
    | cons kp l ih =>
      intro st h
      refine ih _ ?_
      by_cases h1 : wb && kp.2.partOf == "system.base"
      · simp only [h1, if_true, ite_true]
        exact stInv_dfsStep r _ st h
      · simp only [h1, if_false, ite_false, Bool.false_eq_true]
        by_cases h2 : wd && kp.2.partOf == "system.devel"
        · simp only [h2, if_true, ite_true]
          exact stInv_dfsStep r _ st h
        · simp only [h2, if_false, ite_false, Bool.false_eq_true]
          exact h
  have hem : ∀ (l : List String) (st : St), StInv r st →
      StInv r (l.foldl (fun st p => (dfs r (queryFuel r) p st).1) st) := by
    intro l
    induction l with
    | nil => intro st h; exact h
    | cons p l ih => intro st h; exact ih _ (stInv_dfsStep r p st h)
  by_cases hb : (wb || wd : Bool) = true <;> by_cases he : em = true <;>
    simp only [hb, he, if_true, if_false, ite_true, ite_false] <;>
    first
      | exact hem _ _ (hbase _ _ (stInv_start r))
      | exact hbase _ _ (stInv_start r)
      | exact hem _ _ (stInv_start r)
      | exact stInv_start r

/-- Names emitted into `res` are exactly the visited names, in visit order,
once the resolver is well-formed. -/
theorem res_names_eq {r : Resolver} (hwf : r.WF) {st : St}
    (hinv : StInv r st) : st.2.map (fun d => d.name) = st.1.reverse := by
  rw [hinv.2.2, List.map_map]
  refine Eq.trans (List.map_congr_left ?_) (List.map_id _)
  intro x hx
  have hkey : isKeyB r x = true := hinv.2.1 x (List.mem_reverse.mp hx)
  unfold isKeyB at hkey
  rcases hl : lookupA r.nameToPkg x with _ | p
  · rw [hl] at hkey
    simp at hkey
  · show (depOf r x).name = x
    unfold depOf
    rw [hl]
    exact wf_lookup hwf hl

/-- A single index used for concrete evaluation: package `a` depends on
package `b`. -/
def exIdxs : List (List IdxPackage) :=
  [[{ name := "a", packageHash := "ha", partOf := "", runtimeDeps := ["b"],
      pkgConfig := [], pkgConfig32 := [] },
    { name := "b", packageHash := "hb", partOf := "", runtimeDeps := [],
      pkgConfig := [], pkgConfig32 := [] }]]

/-- An index whose `system.base` members make the seeding walk
order-sensitive: base member `a` depends on `x` and `z`, base member `b`
depends on `x` only, and `x` depends on the unknown package `u` (so every
walk through `x` errors out midway and the seeding loop ignores it). -/
def exIdxsSeed : List (List IdxPackage) :=
  [[{ name := "a", packageHash := "ha", partOf := "system.base",
      runtimeDeps := ["x", "z"], pkgConfig := [], pkgConfig32 := [] },
    { name := "b", packageHash := "hb", partOf := "system.base",
      runtimeDeps := ["x"], pkgConfig := [], pkgConfig32 := [] },
    { name := "x", packageHash := "hx", partOf := "",
      runtimeDeps := ["u"], pkgConfig := [], pkgConfig32 := [] },
    { name := "z", packageHash := "hz", partOf := "",
      runtimeDeps := [], pkgConfig := [], pkgConfig32 := [] }]]

/-- One legitimate iteration order of the seeding map range: `a` before
`b`. -/
def exOrdAB : List (String × IdxPackage) :=
  (buildResolver exIdxsSeed).nameToPkg

/-- Another legitimate iteration order of the same map: `b` before `a`. -/
def exOrdBA : List (String × IdxPackage) :=
  match (buildResolver exIdxsSeed).nameToPkg with
  | a :: b :: rest => b :: a :: rest
  | l => l

end Solbuild

/-- C4 counterexample: `Query`'s seeding loop ranges over a Go map in
unspecified, run-to-run varying order and ignores the `dfs` errors that
abort a member's walk midway, so two legitimate iteration orders of the
same resolver — with the identical (empty) seed list and base seeding
enabled — both succeed yet return different dep lists.  The output of
`Query` is therefore not a deterministic function of the seed set, which
refutes the original claim's determinism clause. -/
theorem resolver_query_claim_counterexample :
    Solbuild.exOrdAB.Perm
      (Solbuild.buildResolver Solbuild.exIdxsSeed).nameToPkg ∧
    Solbuild.exOrdBA.Perm
      (Solbuild.buildResolver Solbuild.exIdxsSeed).nameToPkg ∧
    Solbuild.Resolver.Query (Solbuild.buildResolver Solbuild.exIdxsSeed)
      Solbuild.exOrdAB [] true false false =
      ([{ name := "a", hash := "ha" }, { name := "b", hash := "hb" },
        { name := "x", hash := "hx" }], none) ∧
    Solbuild.Resolver.Query (Solbuild.buildResolver Solbuild.exIdxsSeed)
      Solbuild.exOrdBA [] true false false =
      ([{ name := "a", hash := "ha" }, { name := "b", hash := "hb" },
        { name := "x", hash := "hx" }, { name := "z", hash := "hz" }], none) ∧
    ([{ name := "a", hash := "ha" }, { name := "b", hash := "hb" },
      { name := "x", hash := "hx" }] : List Solbuild.Dep) ≠
      [{ name := "a", hash := "ha" }, { name := "b", hash := "hb" },
       { name := "x", hash := "hx" }, { name := "z", hash := "hz" }] := by
  refine ⟨?_, ?_, ?_, ?_, ?_⟩ <;> decide

/-- C4 (amended): for every resolver state (reachable ones are exactly
those built by `AddIndex` from indices), every fixed iteration order `ord`
of the seeding map range, and every seed list that `Query` resolves
successfully, the result is sorted ascending by name, and every
permutation of the seed list — under that same iteration order — resolves
to exactly the same list: the output is a deterministic function of the
seed set together with the seeding iteration order, not of the seed
order; it is not a function of the seed set alone. -/
theorem resolver_query_seed_perm (idxs : List (List Solbuild.IdxPackage))
    (ord : List (String × Solbuild.IdxPackage))
    (s₁ s₂ : List String) (wb wd em : Bool) (out : List Solbuild.Dep)
    (hperm : s₁.Perm s₂)
    (h1 : Solbuild.Resolver.Query (Solbuild.buildResolver idxs) ord s₁ wb wd em =
      (out, none)) :
    Solbuild.Resolver.Query (Solbuild.buildResolver idxs) ord s₂ wb wd em =
      (out, none) ∧ List.Pairwise Solbuild.depLe out := by
  set r := Solbuild.buildResolver idxs with hr
  have hwf : r.WF := Solbuild.wf_buildResolver idxs
  set st0 := Solbuild.queryStart r ord wb wd em with hst0
  have hinv0 : Solbuild.StInv r st0 := Solbuild.stInv_queryStart r ord wb wd em
  have hfc0 : Solbuild.freshCount r st0.1 < Solbuild.queryFuel r :=
    Solbuild.freshCount_lt_queryFuel r st0.1
  have hcontract := Solbuild.dfsList_contract r
    (Solbuild.dfs r (Solbuild.queryFuel r)) (Solbuild.queryFuel r)
    (Solbuild.dfs_contract r (Solbuild.queryFuel r))
  obtain ⟨hinv1, hmem1, hfuel1, hok1, herr1⟩ := hcontract s₁ st0 hinv0 hfc0
  obtain ⟨hinv2, hmem2, hfuel2, hok2, herr2⟩ := hcontract s₂ st0 hinv0 hfc0
  unfold Solbuild.Resolver.Query at h1 ⊢
  rw [← hst0] at h1 ⊢
  rcases hrun1 : Solbuild.dfsList (Solbuild.dfs r (Solbuild.queryFuel r)) s₁ st0
    with ⟨st1, e1⟩
  rw [hrun1] at h1
  rw [hrun1] at hinv1 hmem1 hfuel1 hok1 herr1
  cases e1 with
  | some e =>
    simp at h1
  | none =>
    simp only [Prod.mk.injEq] at h1
    obtain ⟨hout, -⟩ := h1
    have hpost1 := hok1 rfl
    rcases hrun2 : Solbuild.dfsList (Solbuild.dfs r (Solbuild.queryFuel r)) s₂ st0
      with ⟨st2, e2⟩
    rw [hrun2] at hinv2 hmem2 hfuel2 hok2 herr2
    have he2 : e2 = none := by
      cases e2 with
      | none => rfl
      | some e =>
        cases e with
        | fuel => exact absurd rfl hfuel2
        | unknown m =>
          obtain ⟨hk, n, hn, hra⟩ := herr2 m rfl
          have hn1 : n ∈ s₁ := (hperm.mem_iff).mpr hn
          have := (hpost1.1 n hn1 m hra).1
          rw [this] at hk
          cases hk
    subst he2
    have hpost2 := hok2 rfl
    -- the two visited sets are equal
    have hsets : ∀ x, x ∈ st1.1 ↔ x ∈ st2.1 := by
      intro x
      constructor
      · intro hx
        rcases hpost1.2.1 x hx with hx0 | ⟨n, hn, hra⟩
        · exact hmem2 x hx0
        · exact (hpost2.1 n (hperm.mem_iff.mp hn) x hra).2
      · intro hx
        rcases hpost2.2.1 x hx with hx0 | ⟨n, hn, hra⟩
        · exact hmem1 x hx0
        · exact (hpost1.1 n (hperm.mem_iff.mpr hn) x hra).2
    have hvperm : st1.1.Perm st2.1 :=
      (List.perm_ext_iff_of_nodup hinv1.1 hinv2.1).mpr hsets
    -- hence the two result lists are permutations of each other
    have hrperm : st1.2.Perm st2.2 := by
      rw [hinv1.2.2, hinv2.2.2]
      exact ((List.reverse_perm st1.1).trans
        (hvperm.trans (List.reverse_perm st2.1).symm)).map _
    -- names are pairwise distinct
    have hnames1 : (st1.2.map (fun d => d.name)).Nodup := by
      rw [Solbuild.res_names_eq hwf hinv1]
      exact List.nodup_reverse.mpr hinv1.1
    -- the sorted outputs coincide
    have hsort1 : List.Pairwise Solbuild.depLe (Solbuild.sortDepsByName st1.2) :=
      List.sorted_insertionSort Solbuild.depLe st1.2
    have hsort2 : List.Pairwise Solbuild.depLe (Solbuild.sortDepsByName st2.2) :=
      List.sorted_insertionSort Solbuild.depLe st2.2
    have hoperm : (Solbuild.sortDepsByName st1.2).Perm
        (Solbuild.sortDepsByName st2.2) :=
      ((List.perm_insertionSort Solbuild.depLe st1.2).trans hrperm).trans
        (List.perm_insertionSort Solbuild.depLe st2.2).symm
    have hnames1' : ((Solbuild.sortDepsByName st1.2).map
        (fun d => d.name)).Nodup :=
      (((List.perm_insertionSort Solbuild.depLe st1.2).map
        (fun d => d.name)).symm).nodup hnames1
    have heq : Solbuild.sortDepsByName st1.2 = Solbuild.sortDepsByName st2.2 := by
      refine List.Perm.eq_of_sorted ?_ hsort1 hsort2 hoperm
      intro a b ha hb hab hba
      have hbin : b ∈ Solbuild.sortDepsByName st1.2 := hoperm.symm.mem_iff.mp hb
      have hname : a.name = b.name := le_antisymm hab hba
      exact List.inj_on_of_nodup_map hnames1' ha hbin hname
    constructor
    · show (Solbuild.sortDepsByName st2.2, (none : Option Solbuild.DfsErr)) =
        (out, none)
      rw [← heq, hout]
    · rw [← hout]
      exact hsort1

/-- Witness for the C4 theorem: on the concrete index `exIdxs` (seeding
disabled, so the iteration order is empty), the seed lists `["b", "a"]`
and `["a", "b"]` are permutations of each other, the first resolves
successfully, and the theorem yields the identical sorted output for the
second. -/
theorem resolver_query_seed_perm_witness :
    Solbuild.Resolver.Query (Solbuild.buildResolver Solbuild.exIdxs) []
      ["a", "b"] false false false =
      ([{ name := "a", hash := "ha" }, { name := "b", hash := "hb" }], none) ∧
    List.Pairwise Solbuild.depLe
      [({ name := "a", hash := "ha" } : Solbuild.Dep),
       { name := "b", hash := "hb" }] :=
  resolver_query_seed_perm Solbuild.exIdxs [] ["b", "a"] ["a", "b"] false
    false false [{ name := "a", hash := "ha" }, { name := "b", hash := "hb" }]
    (List.Perm.swap "a" "b" []) (by decide)

/-- C8: `ValidMemSize(s)` returns true iff `s` is non-empty, its last
character is one of `G`, `T`, `P`, `E`, and the prefix before the last
character is numeric (i.e. accepted by `strconv.ParseFloat`); everything
else, including the empty string, is rejected — for every behaviour of the
`ParseFloat` oracle. -/
theorem validMemSize_spec (parseFloatOk : String → Bool) (s : String) :
    Solbuild.ValidMemSize parseFloatOk s =
      (s ≠ "" && parseFloatOk ⟨s.toList.dropLast⟩ &&
        [['G'], ['T'], ['P'], ['E']].any (fun v => v == [s.toList.getLastD ' '])) := by
  unfold Solbuild.ValidMemSize
  by_cases h : s = "" <;> simp [h]
